import Mathlib

/-!
Shallow embedding of the log-structured key-value store in `src/lib.rs`
(crate `kvs`, type `KvStore`).

Modelling conventions:

- The contents of the single log file `db.log` are modelled as a `List Char`
  (the store only ever writes UTF-8 text, one JSON record per line; byte
  offsets coincide with char offsets for the ASCII payloads used in the
  concrete runs below, and all offset arithmetic in the source is mirrored
  verbatim on the char list).
- `HashMap<String, CommandBuffer>` is modelled as an association list
  `List (String × CommandBuffer)` with `assocGet` / `assocInsert` /
  `assocRemove`; `insert` replaces in place, which fixes a deterministic
  iteration order for the compaction loop (the observable `get` results
  proved below do not depend on that order).
- `serde_json::to_string` for the `Command` enum is the function `encode`
  below (externally tagged enum, fields in declaration order, string
  escaping as serde_json performs it), and `serde_json::from_str` is the
  function `from_str` (a parser for exactly that record language, tolerating
  surrounding whitespace the way serde_json does, and rejecting trailing
  non-whitespace input).
- Fault-free file I/O is modelled directly; where a claim is about an I/O
  failure, a separate definition with an explicit fault flag mirrors the
  source with that one call failing (`compact_logF`, `KvStore.removeF`).
- In the source, `impl From<io::Error> for KvError` yields `OpenError` and
  `impl From<serde_json::Error> for KvError` yields `WriteError`; the `?`
  conversions below follow that mapping.
-/

/-- The `Command` enum from `src/lib.rs` (records written to the log). -/
inductive Command where
  | set (key value : String)
  | get (key : String)
  | rm (key : String)
deriving DecidableEq, Repr

/-- The `KvError` enum from `src/lib.rs`. -/
inductive KvError where
  | WriteError
  | OpenError
  | NoLogPathError
  | RemoveError
  | ReadLogError
  | InvalidLogCommand
deriving DecidableEq, Repr

/-- The `CommandBuffer` struct: an index entry `(start, size)` locating a
record in the log file. -/
structure CommandBuffer where
  start : Nat
  size : Nat
deriving DecidableEq, Repr

/-- The `KvStore` struct. `file` is the current content of `db.log`
(the append handle and the read path both refer to it); `store` is the
in-memory index; `log_size` and `number_of_writes` are the two counters. -/
structure KvStore where
  store : List (String × CommandBuffer)
  file : List Char
  log_size : Nat
  number_of_writes : Nat
deriving DecidableEq, Repr

instance {ε α : Type} [DecidableEq ε] [DecidableEq α] : DecidableEq (Except ε α) :=
  fun a b =>
    match a, b with
    | Except.ok x, Except.ok y =>
        if h : x = y then isTrue (by rw [h]) else isFalse (fun hc => h (by cases hc; rfl))
    | Except.ok _, Except.error _ => isFalse (fun hc => Except.noConfusion hc)
    | Except.error _, Except.ok _ => isFalse (fun hc => Except.noConfusion hc)
    | Except.error x, Except.error y =>
        if h : x = y then isTrue (by rw [h]) else isFalse (fun hc => h (by cases hc; rfl))

/-! ## Association list operations (model of `HashMap`) -/

def assocGet : List (String × CommandBuffer) → String → Option CommandBuffer
  | [], _ => none
  | (k, b) :: rest, key => if k = key then some b else assocGet rest key

def assocInsert : List (String × CommandBuffer) → String → CommandBuffer →
    List (String × CommandBuffer)
  | [], key, buf => [(key, buf)]
  | (k, b) :: rest, key, buf =>
      if k = key then (key, buf) :: rest else (k, b) :: assocInsert rest key buf

def assocRemove : List (String × CommandBuffer) → String →
    List (String × CommandBuffer)
  | [], _ => []
  | (k, b) :: rest, key =>
      if k = key then rest else (k, b) :: assocRemove rest key

/-! ## Record codec: serde_json serialization of `Command` -/

/-- Lowercase hex digit, as serde_json emits in unicode escapes. -/
def hexDigitChar (n : Nat) : Char :=
  if n < 10 then Char.ofNat (48 + n) else Char.ofNat (87 + n)

/-- serde_json escaping of a single character inside a JSON string:
quote and backslash get a backslash escape, the control characters
backspace, formfeed, newline, carriage return and tab get their short
escapes, the remaining control characters get a `u00XX` escape, and every
other character is emitted as itself. -/
def escChar (c : Char) : List Char :=
  if c = '"' then ['\\', '"']
  else if c = '\\' then ['\\', '\\']
  else if c = '\n' then ['\\', 'n']
  else if c = '\r' then ['\\', 'r']
  else if c = '\t' then ['\\', 't']
  else if c.toNat = 8 then ['\\', 'b']
  else if c.toNat = 12 then ['\\', 'f']
  else if c.toNat < 32 then
    ['\\', 'u', '0', '0', hexDigitChar (c.toNat / 16), hexDigitChar (c.toNat % 16)]
  else [c]

def esc : List Char → List Char
  | [] => []
  | c :: cs => escChar c ++ esc cs

def litSetOpen : List Char := "\x7b\"Set\":\x7b\"key\":\"".data
def litValueMid : List Char := "\",\"value\":\"".data
def litClose : List Char := "\"\x7d\x7d".data
def litRmOpen : List Char := "\x7b\"Rm\":\x7b\"key\":\"".data
def litGetOpen : List Char := "\x7b\"Get\":\x7b\"key\":\"".data

/-- `serde_json::to_string` on a `Command` (externally tagged enum). -/
def encode : Command → List Char
  | Command.set k v => litSetOpen ++ esc k.data ++ litValueMid ++ esc v.data ++ litClose
  | Command.rm k => litRmOpen ++ esc k.data ++ litClose
  | Command.get k => litGetOpen ++ esc k.data ++ litClose

/-! ## Record parser: serde_json deserialization of `Command` -/

def isWsChar (c : Char) : Bool :=
  c = ' ' || c = '\n' || c = '\t' || c = '\r'

def skipWs : List Char → List Char
  | [] => []
  | c :: cs => if isWsChar c then skipWs cs else c :: cs

def hexVal (c : Char) : Option Nat :=
  if '0' ≤ c ∧ c ≤ '9' then some (c.toNat - 48)
  else if 'a' ≤ c ∧ c ≤ 'f' then some (c.toNat - 87)
  else if 'A' ≤ c ∧ c ≤ 'F' then some (c.toNat - 55)
  else none

/-- Decode a resolved escape character (the character after the
backslash), for the single-character escapes serde_json accepts. -/
def escCode (e : Char) : Option Char :=
  if e = '"' then some '"'
  else if e = '\\' then some '\\'
  else if e = '/' then some '/'
  else if e = 'n' then some '\n'
  else if e = 't' then some '\t'
  else if e = 'r' then some '\r'
  else if e = 'b' then some (Char.ofNat 8)
  else if e = 'f' then some (Char.ofNat 12)
  else none

/-- Parse the body of a JSON string after the opening quote, with explicit
fuel (every step consumes at least one input character, so fuel equal to
the input length never runs out — see `parseStrBody`); returns the decoded
characters together with the input remaining after the closing quote.
Unescaped control characters and invalid escapes are rejected, as
serde_json rejects them. -/
def parseStrStep (recur : List Char → Option (List Char × List Char))
    (c : Char) (rest : List Char) : Option (List Char × List Char) :=
  if c = '"' then some ([], rest)
  else if c = '\\' then
    match rest with
    | [] => none
    | e :: rest2 =>
      if e = 'u' then
        match rest2 with
        | h1 :: h2 :: h3 :: h4 :: rest3 =>
          match hexVal h1, hexVal h2, hexVal h3, hexVal h4 with
          | some a, some b, some c2, some d =>
            (recur rest3).map
              (fun p => (Char.ofNat (((a * 16 + b) * 16 + c2) * 16 + d) :: p.1, p.2))
          | _, _, _, _ => none
        | _ => none
      else
        match escCode e with
        | some decoded => (recur rest2).map (fun p => (decoded :: p.1, p.2))
        | none => none
  else if c.toNat < 32 then none
  else (recur rest).map (fun p => (c :: p.1, p.2))

def parseStrBodyF : Nat → List Char → Option (List Char × List Char)
  | 0, _ => none
  | _ + 1, [] => none
  | fuel + 1, c :: rest => parseStrStep (fun l => parseStrBodyF fuel l) c rest

/-- Parse the body of a JSON string after the opening quote. -/
def parseStrBody (l : List Char) : Option (List Char × List Char) :=
  parseStrBodyF l.length l

/-- Expect an exact literal character sequence. -/
def expectLit : List Char → List Char → Option (List Char)
  | [], s => some s
  | a :: p, b :: s => if a = b then expectLit p s else none
  | _ :: _, [] => none

/-- Expect a punctuation character, allowing leading whitespace. -/
def expectCh (c : Char) (s : List Char) : Option (List Char) :=
  match skipWs s with
  | [] => none
  | b :: rest => if b = c then some rest else none

def litSetTag : List Char := "Set\"".data
def litRmTag : List Char := "Rm\"".data
def litGetTag : List Char := "Get\"".data
def litKeyName : List Char := "key".data
def litValueName : List Char := "value".data

/-- Parse a `"name": "<string>"` field. -/
def parseField (name : List Char) (s : List Char) : Option (List Char × List Char) := do
  let s1 ← expectCh '"' s
  let s2 ← expectLit (name ++ ['"']) s1
  let s3 ← expectCh ':' s2
  let s4 ← expectCh '"' s3
  parseStrBody s4

/-- Require that only whitespace remains (serde_json tolerates trailing
whitespace but rejects trailing data). -/
def endOfInput (s : List Char) : Option Unit :=
  match skipWs s with
  | [] => some ()
  | _ :: _ => none

/-- `serde_json::from_str::<Command>` on the given input. -/
def from_str (input : List Char) : Option Command := do
  let s1 ← expectCh '\x7b' input
  let s2 ← expectCh '"' s1
  match expectLit litSetTag s2 with
  | some s3 => do
    let s4 ← expectCh ':' s3
    let s5 ← expectCh '\x7b' s4
    let (k, s6) ← parseField litKeyName s5
    let s7 ← expectCh ',' s6
    let (v, s8) ← parseField litValueName s7
    let s9 ← expectCh '\x7d' s8
    let s10 ← expectCh '\x7d' s9
    let _ ← endOfInput s10
    pure (Command.set (String.mk k) (String.mk v))
  | none =>
    match expectLit litRmTag s2 with
    | some s3 => do
      let s4 ← expectCh ':' s3
      let s5 ← expectCh '\x7b' s4
      let (k, s6) ← parseField litKeyName s5
      let s7 ← expectCh '\x7d' s6
      let s8 ← expectCh '\x7d' s7
      let _ ← endOfInput s8
      pure (Command.rm (String.mk k))
    | none =>
      match expectLit litGetTag s2 with
      | some s3 => do
        let s4 ← expectCh ':' s3
        let s5 ← expectCh '\x7b' s4
        let (k, s6) ← parseField litKeyName s5
        let s7 ← expectCh '\x7d' s6
        let s8 ← expectCh '\x7d' s7
        let _ ← endOfInput s8
        pure (Command.get (String.mk k))
      | none => none

/-! ## The store operations -/

/-- Read exactly `size` chars at offset `start` (`seek` + `read_exact`);
fails when fewer are available, like `read_exact`. -/
def readSlice (file : List Char) (start size : Nat) : Option (List Char) :=
  if start + size ≤ file.length then some ((file.drop start).take size) else none

/-- `KvStore::get`. Looks the key up in the index; if present, reads the
indexed byte range from the log file and decodes it. An I/O failure maps
to `OpenError` (the blanket `From<io::Error>` impl), a JSON parse failure
to `WriteError` (the blanket `From<serde_json::Error>` impl), and a decoded
non-`Set` record to `InvalidLogCommand`. The decoded key is not compared
with the requested key (the source binds and ignores it). -/
def KvStore.get (s : KvStore) (key : String) : Except KvError (Option String) :=
  match assocGet s.store key with
  | none => Except.ok none
  | some buf =>
    match readSlice s.file buf.start buf.size with
    | none => Except.error KvError.OpenError
    | some bytes =>
      match from_str bytes with
      | none => Except.error KvError.WriteError
      | some (Command.set _ v) => Except.ok (some v)
      | some _ => Except.error KvError.InvalidLogCommand

/-- One step of the `compact_log` loop body: `self.get(key)`, and on
`Ok(Some(value))` append a re-encoded `Set` record to the new file and
record the new entry; on `Ok(None)` or `Err(_)` do nothing. -/
structure CompactAcc where
  ustore : List (String × CommandBuffer)
  nfile : List Char
  off : Nat

def compactStep (s : KvStore) (acc : CompactAcc) (kv : String × CommandBuffer) :
    CompactAcc :=
  match s.get kv.1 with
  | Except.ok (some v) =>
    let enc := encode (Command.set kv.1 v)
    { ustore := assocInsert acc.ustore kv.1 ⟨acc.off, enc.length⟩,
      nfile := acc.nfile ++ enc ++ ['\n'],
      off := acc.off + enc.length + 1 }
  | _ => acc

/-- `KvStore::compact_log`, with the outcome of the `fs::rename` call made
explicit: the source ignores a rename failure (it only logs to stderr) and
installs the rebuilt index, the new `log_size` and a reopened append handle
on `db.log` regardless, so on `renameFails = true` the file content stays
the old one while the index already refers to the rebuilt layout. The
function is total (the source returns `Ok(())` on every path it does not
panic on). -/
def compact_logF (renameFails : Bool) (s : KvStore) : KvStore :=
  let acc := s.store.foldl (compactStep s) ⟨[], [], 0⟩
  { store := acc.ustore,
    file := if renameFails then s.file else acc.nfile,
    log_size := acc.off,
    number_of_writes := s.number_of_writes }

/-- `KvStore::compact_log` in the fault-free case (rename succeeds). -/
def compact_log (s : KvStore) : KvStore := compact_logF false s

/-- `KvStore::increment_writes`: bump the counter, and when it reaches a
multiple of 10000 run a compaction (whose `Result` the source unwraps). -/
def increment_writes (s : KvStore) : KvStore :=
  let s1 : KvStore := { s with number_of_writes := s.number_of_writes + 1 }
  if s1.number_of_writes % 10000 = 0 then compact_log s1 else s1

/-- `KvStore::set`: increments the write counter first, then appends the
encoded `Set` record plus newline, then records the index entry
`{start: log_size, size: serialized_len + 1}` and advances `log_size`. -/
def KvStore.set (s0 : KvStore) (key value : String) :
    Except KvError Unit × KvStore :=
  let s1 := increment_writes s0
  let enc := encode (Command.set key value)
  let size := enc.length
  let s2 : KvStore := { s1 with file := s1.file ++ enc ++ ['\n'] }
  let buf : CommandBuffer := ⟨s2.log_size, size + 1⟩
  let s3 : KvStore :=
    { s2 with log_size := s2.log_size + size + 1,
              store := assocInsert s2.store key buf }
  (Except.ok (), s3)

/-- Outcome of a `remove` call, including the possibility that the source
panics: `remove` calls `.unwrap()` on the result of the log append, so a
failed append aborts the process instead of returning an error. -/
inductive RemoveOutcome where
  | ok (s : KvStore)
  | err (e : KvError) (s : KvStore)
  | crashed (s : KvStore)
deriving DecidableEq, Repr

/-- `KvStore::remove`, with the outcome of the log append made explicit.
The counter is incremented first; the index entry is removed *before* the
append is attempted; a failed append panics (`crashed`) with the entry
already gone; an absent key yields `RemoveError`. Note that `log_size` is
never advanced on the success path — the source omits it. -/
def KvStore.removeF (writeFails : Bool) (s0 : KvStore) (key : String) :
    RemoveOutcome :=
  let s1 := increment_writes s0
  let value := assocGet s1.store key
  let s2 : KvStore := { s1 with store := assocRemove s1.store key }
  match value with
  | some _ =>
      if writeFails then RemoveOutcome.crashed s2
      else RemoveOutcome.ok { s2 with file := s2.file ++ encode (Command.rm key) ++ ['\n'] }
  | none => RemoveOutcome.err KvError.RemoveError s2

/-- `KvStore::remove` in the fault-free case. -/
def KvStore.remove (s0 : KvStore) (key : String) :
    Except KvError Unit × KvStore :=
  match KvStore.removeF false s0 key with
  | RemoveOutcome.ok s => (Except.ok (), s)
  | RemoveOutcome.err e s => (Except.error e, s)
  | RemoveOutcome.crashed s => (Except.error KvError.WriteError, s)

/-! ## Replay (`read_log_file` / `read_line_into_store`) and `open` -/

/-- Split on newline characters, keeping a (possibly empty) trailing
segment. -/
def splitNl : List Char → List (List Char)
  | [] => [[]]
  | c :: rest =>
    match splitNl rest with
    | [] => [[]]
    | l :: ls => if c = '\n' then [] :: l :: ls else (c :: l) :: ls

/-- `BufReader::lines`: the segments between newlines, with a single
trailing empty segment (from a final newline) dropped. -/
def linesOf (f : List Char) : List (List Char) :=
  let ls := splitNl f
  if ls.getLast? = some [] then ls.dropLast else ls

/-- The loop of `read_log_file` over `read_line_into_store`: each line is
decoded (a parse failure aborts with `WriteError`, the blanket
`From<serde_json::Error>` impl); a `Set` inserts `{start: offset,
size: line_len}`, an `Rm` removes the key, a `Get` record is rejected with
`InvalidLogCommand`; the running offset advances by `line_len + 1`. -/
def replayLines :
    List (String × CommandBuffer) → Nat → List (List Char) →
    Except KvError (List (String × CommandBuffer) × Nat)
  | st, off, [] => Except.ok (st, off)
  | st, off, l :: ls =>
    match from_str l with
    | none => Except.error KvError.WriteError
    | some (Command.rm k) => replayLines (assocRemove st k) (off + l.length + 1) ls
    | some (Command.set k _) =>
        replayLines (assocInsert st k ⟨off, l.length⟩) (off + l.length + 1) ls
    | some (Command.get _) => Except.error KvError.InvalidLogCommand

/-- `KvStore::read_log_file`: replay the whole log into the store and set
`log_size` to the final offset. -/
def read_log_file (s : KvStore) : Except KvError KvStore :=
  match replayLines s.store 0 (linesOf s.file) with
  | Except.error e => Except.error e
  | Except.ok (st, off) => Except.ok { s with store := st, log_size := off }

/-- `KvStore::open` (named `openStore` because `open` is a Lean keyword):
start from an empty index over the existing file contents, replay the log,
then run one unconditional compaction pass. -/
def KvStore.openStore (f : List Char) : Except KvError KvStore :=
  let s : KvStore := { store := [], file := f, log_size := 0, number_of_writes := 0 }
  match read_log_file s with
  | Except.error e => Except.error e
  | Except.ok s1 => Except.ok (compact_log s1)

/-! ## Concrete runs

The scenario `open(empty dir); set("a","1"); remove("a"); set("a","2")`
exercises the fact that `remove` appends an `Rm` record to the log but does
not advance `log_size`, so the second `set` records a stale offset. -/

def init0 : KvStore := { store := [], file := [], log_size := 0, number_of_writes := 0 }

def sA : KvStore := (KvStore.set init0 "a" "1").2

def sB : KvStore := (KvStore.remove sA "a").2

def sBug : KvStore := (KvStore.set sB "a" "2").2

/-- The store produced by closing `sBug` and reopening from its directory
(replaying `db.log` and running the open-time compaction). -/
def sReopen : KvStore :=
  match KvStore.openStore sBug.file with
  | Except.ok s => s
  | Except.error _ => init0

/-- A consistent store holding the two records `Set("a","1")`,
`Set("a","2")` with the index on the second (the state after
`open; set("a","1"); set("a","2")`). -/
def s4 : KvStore := (KvStore.set sA "a" "2").2

/-- A store whose index entry for `"a"` locates a `Set` record for the
different key `"b"`. -/
def s6 : KvStore :=
  { store := [("a", ⟨0, 31⟩)],
    file := encode (Command.set "b" "2") ++ ['\n'],
    log_size := 32,
    number_of_writes := 0 }

/-- The consistent one-key store with the write counter one call away from
the 10000 threshold. -/
def s7 : KvStore := { sA with number_of_writes := 9999 }

/-- The desynchronized store `sBug` with the write counter one call away
from the 10000 threshold (the same index/log shape is reachable with the
counter at 9999 by repeating the `set;remove;set` cycle 3333 times). -/
def s9 : KvStore := { sBug with number_of_writes := 9999 }

/-! ## Code-bug and counterexample theorems on the concrete runs -/

/-- C1 (code bug): after the successfully-acknowledged sequence
`open; set("a","1"); remove("a"); set("a","2")`, the in-memory store
answers `get("a")` with an error (the stale index offset left by `remove`
makes the log read hit the `Rm` record, whose JSON parse fails), while
closing and reopening from the same directory replays the log correctly
and answers `Ok(Some("2"))`: the reopened store does not match the
in-memory store, refuting crash-replay equivalence on the code. -/
theorem c1_crash_replay_divergence :
    KvStore.openStore [] = Except.ok init0 ∧
    (KvStore.set init0 "a" "1").1 = Except.ok () ∧
    (KvStore.remove sA "a").1 = Except.ok () ∧
    (KvStore.set sB "a" "2").1 = Except.ok () ∧
    sBug.get "a" = Except.error KvError.WriteError ∧
    KvStore.openStore sBug.file = Except.ok sReopen ∧
    sReopen.get "a" = Except.ok (some "2") := by
  refine ⟨by decide, by decide, by decide, by decide, by decide, by decide, by decide⟩

/-- C2 (code bug): the acknowledged `set("a","2")` performed after
`set("a","1"); remove("a")` is not readable back: `get("a")` returns
`Err(WriteError)` instead of `Some("2")`, because `remove` appended a
record without advancing `log_size`, so the `set` stored a stale offset. -/
theorem c2_set_then_get_broken_after_remove :
    (KvStore.set sB "a" "2").1 = Except.ok () ∧
    (KvStore.set sB "a" "2").2.get "a" = Except.error KvError.WriteError ∧
    Except.error KvError.WriteError ≠
      (Except.ok (some "2") : Except KvError (Option String)) := by
  refine ⟨by decide, by decide, by decide⟩

/-- C3 (counterexample): from the reachable store left by
`open; set("a","1"); remove("a"); set("a","2")`, a compaction pass that
completes changes the observable result of `get("a")` from
`Err(WriteError)` to `Ok(None)` — the erroring key is silently dropped —
so compaction does not leave every get result identical. -/
theorem c3_compaction_changes_get_on_error :
    sBug.get "a" = Except.error KvError.WriteError ∧
    (compact_log sBug).get "a" = Except.ok none := by
  refine ⟨by decide, by decide⟩

/-- C4 (code bug): when the rename step of compaction fails, the source
only logs the failure to stderr and still installs the rebuilt index,
`log_size` and a reopened handle on the old path: `compact_logF true`
returns normally (there is no `CompactionFailed` variant in `KvError` at
all), and on the store holding `Set("a","1"); Set("a","2")` the subsequent
`get("a")` silently returns the stale value `"1"` instead of `"2"` —
the pre-compaction log and index are not left usable. -/
theorem c4_rename_failure_corrupts_store :
    s4.get "a" = Except.ok (some "2") ∧
    compact_logF true s4 ≠ s4 ∧
    (compact_logF true s4).file = s4.file ∧
    (compact_logF true s4).get "a" = Except.ok (some "1") := by
  refine ⟨by decide, by decide, by decide, by decide⟩

/-- C5 (code bug): `remove("a")` on a store containing `"a"` whose log
append fails does not return `WriteFailure` with the index intact —
the source removes the index entry first and then calls `.unwrap()` on
the failed append, so the call panics with the entry for `"a"` already
gone from the index. -/
theorem c5_remove_panics_on_write_failure :
    ∃ s : KvStore,
      KvStore.removeF true sA "a" = RemoveOutcome.crashed s ∧
      assocGet s.store "a" = none ∧
      assocGet sA.store "a" = some ⟨0, 32⟩ := by
  exact ⟨_, rfl, by decide, by decide⟩

/-- C6 (counterexample): on a store whose index entry for key `"a"`
locates a `Set` record for the different key `"b"`, `get("a")` returns
`Ok(Some("2"))` — the mismatched value — rather than reporting
`CorruptLog`: the source never compares the decoded key with the
requested key. -/
theorem c6_get_returns_mismatched_value :
    (readSlice s6.file 0 31).bind from_str = some (Command.set "b" "2") ∧
    s6.get "a" = Except.ok (some "2") := by
  refine ⟨by decide, by decide⟩

/-- C7 (counterexample): with the write counter at 9999, a `remove` of an
absent key fails with `KeyNotFound` (`RemoveError`) yet still advances the
counter to 10000 and triggers a compaction before failing (visible here as
the index entry for `"a"` being rewritten from `(0,32)` to the compacted
`(0,31)`): the counter does not count only successful writes, and
compaction does not wait for the triggering write to complete. -/
theorem c7_failed_remove_advances_counter_and_compacts :
    (KvStore.remove s7 "zzz").1 = Except.error KvError.RemoveError ∧
    (KvStore.remove s7 "zzz").2.number_of_writes = 10000 ∧
    assocGet s7.store "a" = some ⟨0, 32⟩ ∧
    assocGet (KvStore.remove s7 "zzz").2.store "a" = some ⟨0, 31⟩ := by
  refine ⟨by decide, by decide, by decide, by decide⟩

/-- C8 (code bug): in the reachable store left by
`open; set("a","1"); remove("a"); set("a","2")`, key `"a"` is present in
the index with entry `(32, 32)`, but the log bytes at that range are not a
`Set` record for `"a"` (they are the `Rm` record followed by part of the
later `Set`, and do not decode at all): the index invariant is not
preserved by a successful `remove` followed by a `set`. -/
theorem c8_index_invariant_violated :
    assocGet sBug.store "a" = some ⟨32, 32⟩ ∧
    readSlice sBug.file 32 32 ≠ none ∧
    (readSlice sBug.file 32 32).bind from_str = none := by
  refine ⟨by decide, by decide, by decide⟩

/-- C9 (counterexample): on the store `s9` (the desynchronized shape left
by `set("a","1"); remove("a"); set("a","2")` with the write counter at
9999), key `"a"` is present in the index at the time of the call, yet
`remove("a")` fails with `KeyNotFound`: the increment at the start of the
call triggers a compaction which silently drops the key whose indexed
record no longer parses, so failure is not equivalent to absence at call
time. -/
theorem c9_remove_fails_on_present_key :
    assocGet s9.store "a" = some ⟨32, 32⟩ ∧
    (KvStore.remove s9 "a").1 = Except.error KvError.RemoveError := by
  refine ⟨by decide, by decide⟩

/-- C10 (counterexample): on the store `s9`, the successful
`set("b","2")` changes the result of `get("a")` for the distinct key
`"a"` from `Err(WriteError)` to `Ok(None)`: the write-counter increment
inside `set` triggers a compaction that drops the key whose indexed
record no longer parses, so a successful mutation of one key is not
frame-preserving on other keys. -/
theorem c10_set_changes_other_key :
    "a" ≠ "b" ∧
    s9.get "a" = Except.error KvError.WriteError ∧
    (KvStore.set s9 "b" "2").1 = Except.ok () ∧
    (KvStore.set s9 "b" "2").2.get "a" = Except.ok none := by
  refine ⟨by decide, by decide, by decide, by decide⟩

/-! ## Association list lemmas -/

theorem assocGet_insert_same (m : List (String × CommandBuffer)) (k : String)
    (b : CommandBuffer) : assocGet (assocInsert m k b) k = some b := by
  induction m with
  | nil => simp [assocInsert, assocGet]
  | cons hd tl ih =>
    obtain ⟨k0, b0⟩ := hd
    by_cases h : k0 = k
    · simp [assocInsert, assocGet, h]
    · simp [assocInsert, assocGet, h, ih]

theorem assocGet_insert_ne (m : List (String × CommandBuffer)) (k k2 : String)
    (b : CommandBuffer) (hne : k2 ≠ k) :
    assocGet (assocInsert m k b) k2 = assocGet m k2 := by
  induction m with
  | nil => simp [assocInsert, assocGet, Ne.symm hne]
  | cons hd tl ih =>
    obtain ⟨k0, b0⟩ := hd
    by_cases h : k0 = k
    · subst h
      simp [assocInsert, assocGet, Ne.symm hne]
    · simp only [assocInsert, if_neg h, assocGet]
      by_cases h2 : k0 = k2 <;> simp [h2, ih]

theorem assocGet_remove_ne (m : List (String × CommandBuffer)) (k k2 : String)
    (hne : k2 ≠ k) : assocGet (assocRemove m k) k2 = assocGet m k2 := by
  induction m with
  | nil => simp [assocRemove]
  | cons hd tl ih =>
    obtain ⟨k0, b0⟩ := hd
    by_cases h : k0 = k
    · subst h
      simp [assocRemove, assocGet, Ne.symm hne]
    · simp only [assocRemove, if_neg h, assocGet]
      by_cases h2 : k0 = k2 <;> simp [h2, ih]

theorem assocGet_eq_none_of_not_mem (m : List (String × CommandBuffer)) (k : String)
    (h : k ∉ m.map Prod.fst) : assocGet m k = none := by
  induction m with
  | nil => rfl
  | cons hd tl ih =>
    obtain ⟨k0, b0⟩ := hd
    simp only [List.map_cons, List.mem_cons] at h
    push_neg at h
    simp [assocGet, Ne.symm h.1, ih h.2]

theorem assocGet_mem (m : List (String × CommandBuffer)) (k : String)
    (b : CommandBuffer) (h : assocGet m k = some b) : (k, b) ∈ m := by
  induction m with
  | nil => simp [assocGet] at h
  | cons hd tl ih =>
    obtain ⟨k0, b0⟩ := hd
    by_cases hk : k0 = k
    · subst hk
      simp [assocGet] at h
      simp [h]
    · simp [assocGet, hk] at h
      exact List.mem_cons_of_mem _ (ih h)

theorem assocGet_remove_self (m : List (String × CommandBuffer)) (k : String)
    (hnd : (m.map Prod.fst).Nodup) : assocGet (assocRemove m k) k = none := by
  induction m with
  | nil => rfl
  | cons hd tl ih =>
    obtain ⟨k0, b0⟩ := hd
    simp only [List.map_cons, List.nodup_cons] at hnd
    by_cases h : k0 = k
    · subst h
      simp only [assocRemove, if_pos rfl]
      exact assocGet_eq_none_of_not_mem tl k0 hnd.1
    · simp [assocRemove, assocGet, h, ih hnd.2]

theorem assocInsert_keys_of_mem (m : List (String × CommandBuffer)) (k : String)
    (b : CommandBuffer) (h : k ∈ m.map Prod.fst) :
    (assocInsert m k b).map Prod.fst = m.map Prod.fst := by
  induction m with
  | nil => simp at h
  | cons hd tl ih =>
    obtain ⟨k0, b0⟩ := hd
    by_cases hk : k0 = k
    · subst hk
      simp [assocInsert]
    · simp only [List.map_cons, List.mem_cons] at h
      rcases h with h | h
      · exact absurd h.symm hk
      · simp [assocInsert, hk, ih h]

theorem assocRemove_keys_sublist (m : List (String × CommandBuffer)) (k : String) :
    ((assocRemove m k).map Prod.fst).Sublist (m.map Prod.fst) := by
  induction m with
  | nil => simp [assocRemove]
  | cons hd tl ih =>
    obtain ⟨k0, b0⟩ := hd
    by_cases h : k0 = k
    · simp only [assocRemove, if_pos h, List.map_cons]
      exact List.sublist_cons_self _ _
    · simp only [assocRemove, if_neg h, List.map_cons]
      exact ih.cons₂ k0

theorem assocInsert_eq_append (m : List (String × CommandBuffer)) (k : String)
    (b : CommandBuffer) (h : k ∉ m.map Prod.fst) :
    assocInsert m k b = m ++ [(k, b)] := by
  induction m with
  | nil => rfl
  | cons hd tl ih =>
    obtain ⟨k0, b0⟩ := hd
    simp only [List.map_cons, List.mem_cons] at h
    push_neg at h
    simp [assocInsert, Ne.symm h.1, ih h.2]

theorem assocInsert_nodup (m : List (String × CommandBuffer)) (k : String)
    (b : CommandBuffer) (hnd : (m.map Prod.fst).Nodup) :
    ((assocInsert m k b).map Prod.fst).Nodup := by
  by_cases hm : k ∈ m.map Prod.fst
  · rw [assocInsert_keys_of_mem m k b hm]
    exact hnd
  · rw [assocInsert_eq_append m k b hm, List.map_append]
    simp only [List.map_cons, List.map_nil]
    rw [List.nodup_append]
    exact ⟨hnd, List.nodup_singleton k, by simpa using hm⟩

theorem assocRemove_nodup (m : List (String × CommandBuffer)) (k : String)
    (hnd : (m.map Prod.fst).Nodup) :
    ((assocRemove m k).map Prod.fst).Nodup :=
  (assocRemove_keys_sublist m k).nodup hnd

/-! ## Read-slice lemmas -/

/-- Index entries stay within the file; this holds for every reachable
store (each entry is created pointing at a range inside the file, and the
file only grows between compactions) and is used as a side condition for
the frame property. -/
def WithinFile (s : KvStore) : Prop :=
  ∀ p ∈ s.store, p.2.start + p.2.size ≤ s.file.length

instance (s : KvStore) : Decidable (WithinFile s) := by
  unfold WithinFile
  infer_instance

theorem readSlice_append (A B : List Char) (start size : Nat)
    (h : start + size ≤ A.length) :
    readSlice (A ++ B) start size = readSlice A start size := by
  unfold readSlice
  rw [if_pos h, if_pos (by simp; omega)]
  rw [List.drop_append_of_le_length (by omega)]
  rw [List.take_append_of_le_length (by simp; omega)]

theorem readSlice_exact (pre mid post : List Char) (start : Nat)
    (h : pre.length = start) :
    readSlice (pre ++ mid ++ post) start mid.length = some mid := by
  unfold readSlice
  subst h
  rw [if_pos (by simp)]
  rw [List.append_assoc, List.drop_left, List.take_left]

/-- C6 (amended, proved): for every key present in the Index, get reads
the record bytes at the indexed offset/length and decodes them, but the
only check performed is that the decoded record is a Set record for some
key — a Set for a different key has its value returned as if it belonged
to the requested key; a decoded non-Set record (Rm or Get) is reported as
InvalidLogCommand, and undecodable bytes as WriteError. -/
theorem get_checks_only_set_tag (s : KvStore) (k : String) (buf : CommandBuffer)
    (bs : List Char)
    (h1 : assocGet s.store k = some buf)
    (h2 : readSlice s.file buf.start buf.size = some bs) :
    (∀ k2 v, from_str bs = some (Command.set k2 v) → s.get k = Except.ok (some v)) ∧
    (∀ k2, from_str bs = some (Command.rm k2) →
      s.get k = Except.error KvError.InvalidLogCommand) ∧
    (from_str bs = none → s.get k = Except.error KvError.WriteError) := by
  refine ⟨?_, ?_, ?_⟩
  · intro k2 v hp
    simp [KvStore.get, h1, h2, hp]
  · intro k2 hp
    simp [KvStore.get, h1, h2, hp]
  · intro hp
    simp [KvStore.get, h1, h2, hp]

/-- Witness for the C6 amended theorem at the concrete store s6. -/
theorem get_checks_only_set_tag_witness :
    (assocGet s6.store "a" = some ⟨0, 31⟩ ∧
     readSlice s6.file 0 31 = some (encode (Command.set "b" "2")) ∧
     from_str (encode (Command.set "b" "2")) = some (Command.set "b" "2")) ∧
    s6.get "a" = Except.ok (some "2") :=
  ⟨⟨by decide, by decide, by decide⟩,
   (get_checks_only_set_tag s6 "a" ⟨0, 31⟩ (encode (Command.set "b" "2"))
     (by decide) (by decide)).1 "b" "2" (by decide)⟩

/-! ## Write counter lemmas -/

theorem compact_log_writes (s : KvStore) :
    (compact_log s).number_of_writes = s.number_of_writes := rfl

theorem increment_writes_eq (s : KvStore) :
    increment_writes s =
      if (s.number_of_writes + 1) % 10000 = 0
      then compact_log { s with number_of_writes := s.number_of_writes + 1 }
      else { s with number_of_writes := s.number_of_writes + 1 } := rfl

theorem increment_writes_writes (s : KvStore) :
    (increment_writes s).number_of_writes = s.number_of_writes + 1 := by
  rw [increment_writes_eq]
  split <;> simp [compact_log_writes]

theorem set_advances_counter (s : KvStore) (k v : String) :
    (KvStore.set s k v).2.number_of_writes = s.number_of_writes + 1 := by
  simp [KvStore.set, increment_writes_writes]

theorem remove_advances_counter (s : KvStore) (k : String) :
    (KvStore.remove s k).2.number_of_writes = s.number_of_writes + 1 := by
  unfold KvStore.remove KvStore.removeF
  cases h : assocGet (increment_writes s).store k <;>
    simp [h, increment_writes_writes]

theorem openStore_compacts (f : List Char) (s1 : KvStore)
    (h : read_log_file
      { store := [], file := f, log_size := 0, number_of_writes := 0 } =
      Except.ok s1) :
    KvStore.openStore f = Except.ok (compact_log s1) := by
  unfold KvStore.openStore
  simp [h]

/-- C7 (amended, proved): the write counter increments at the start of
every set or remove call regardless of the outcome; compaction runs inside
increment_writes when the incremented counter is a multiple of 10000 —
that is, on the state before the operation has performed its append or its
key-existence check; and open performs one compaction unconditionally
after the initial replay. -/
theorem write_counter_counts_all_calls (s : KvStore) (k v : String) :
    (KvStore.set s k v).2.number_of_writes = s.number_of_writes + 1 ∧
    (KvStore.remove s k).2.number_of_writes = s.number_of_writes + 1 ∧
    increment_writes s =
      (if (s.number_of_writes + 1) % 10000 = 0
       then compact_log { s with number_of_writes := s.number_of_writes + 1 }
       else { s with number_of_writes := s.number_of_writes + 1 }) ∧
    (∀ f s1, read_log_file
        { store := [], file := f, log_size := 0, number_of_writes := 0 } =
        Except.ok s1 →
      KvStore.openStore f = Except.ok (compact_log s1)) :=
  ⟨set_advances_counter s k v, remove_advances_counter s k,
   increment_writes_eq s, fun f s1 h => openStore_compacts f s1 h⟩

/-- Witness for the C7 amended theorem at concrete inputs: the failing
remove on the empty store still advances the counter, and open on the
empty directory compacts after replay. -/
theorem write_counter_counts_all_calls_witness :
    ((KvStore.remove init0 "a").1 = Except.error KvError.RemoveError ∧
     (KvStore.remove init0 "a").2.number_of_writes = init0.number_of_writes + 1) ∧
    (read_log_file
       { store := [], file := [], log_size := 0, number_of_writes := 0 } =
       Except.ok init0 ∧
     KvStore.openStore [] = Except.ok (compact_log init0)) :=
  ⟨⟨by decide, (write_counter_counts_all_calls init0 "a" "1").2.1⟩,
   ⟨by decide,
    (write_counter_counts_all_calls init0 "a" "1").2.2.2 [] init0 (by decide)⟩⟩

theorem remove_err_iff (s2 : KvStore) (k2 : String) :
    (KvStore.remove s2 k2).1 = Except.error KvError.RemoveError ↔
      assocGet (increment_writes s2).store k2 = none := by
  cases h : assocGet (increment_writes s2).store k2 <;>
    simp [KvStore.remove, KvStore.removeF, h]

/-- C9 (amended, proved): away from the 10000-write compaction
boundaries, set(k,v) followed by remove(k) succeeds, a following get(k)
returns None (not an error), and a further remove(k) fails with
KeyNotFound (RemoveError); and in general remove(k) fails with
RemoveError precisely when k is absent from the Index after the
write-counter increment at the start of the call and any compaction that
increment triggers — not necessarily when k is absent at the moment of
the call. -/
theorem tombstone_semantics (s : KvStore) (k v : String)
    (hnd : (s.store.map Prod.fst).Nodup)
    (hc1 : (s.number_of_writes + 1) % 10000 ≠ 0)
    (hc2 : (s.number_of_writes + 2) % 10000 ≠ 0)
    (hc3 : (s.number_of_writes + 3) % 10000 ≠ 0) :
    ((KvStore.remove (KvStore.set s k v).2 k).1 = Except.ok () ∧
     (KvStore.remove (KvStore.set s k v).2 k).2.get k = Except.ok none ∧
     (KvStore.remove (KvStore.remove (KvStore.set s k v).2 k).2 k).1 =
       Except.error KvError.RemoveError) ∧
    (∀ s2 k2, ((KvStore.remove s2 k2).1 = Except.error KvError.RemoveError ↔
      assocGet (increment_writes s2).store k2 = none)) := by
  refine ⟨?_, fun s2 k2 => remove_err_iff s2 k2⟩
  have hs1 : (KvStore.set s k v).2 =
      { store := assocInsert s.store k
          ⟨s.log_size, (encode (Command.set k v)).length + 1⟩,
        file := s.file ++ encode (Command.set k v) ++ ['\n'],
        log_size := s.log_size + ((encode (Command.set k v)).length + 1),
        number_of_writes := s.number_of_writes + 1 } := by
    rw [KvStore.set, increment_writes_eq, if_neg hc1]
    simp [Nat.add_assoc]
  have hget1 : assocGet (KvStore.set s k v).2.store k =
      some ⟨s.log_size, (encode (Command.set k v)).length + 1⟩ := by
    rw [hs1]
    exact assocGet_insert_same _ _ _
  have hnw1 : (KvStore.set s k v).2.number_of_writes = s.number_of_writes + 1 :=
    set_advances_counter s k v
  -- the first remove: its increment does not compact
  have hincr1 : increment_writes (KvStore.set s k v).2 =
      { (KvStore.set s k v).2 with
        number_of_writes := (KvStore.set s k v).2.number_of_writes + 1 } := by
    rw [increment_writes_eq, if_neg]
    rw [hnw1]
    exact hc2
  have hrem1 : KvStore.remove (KvStore.set s k v).2 k =
      (Except.ok (),
       { (KvStore.set s k v).2 with
         store := assocRemove (KvStore.set s k v).2.store k,
         file := (KvStore.set s k v).2.file ++ encode (Command.rm k) ++ ['\n'],
         number_of_writes := (KvStore.set s k v).2.number_of_writes + 1 }) := by
    rw [KvStore.remove, KvStore.removeF, hincr1]
    simp [hget1]
  have hnd1 : (((KvStore.set s k v).2.store.map Prod.fst)).Nodup := by
    rw [hs1]
    exact assocInsert_nodup _ _ _ hnd
  have hgone : assocGet (assocRemove (KvStore.set s k v).2.store k) k = none :=
    assocGet_remove_self _ _ hnd1
  refine ⟨by rw [hrem1], ?_, ?_⟩
  · rw [hrem1]
    simp [KvStore.get, hgone]
  · rw [hrem1]
    rw [KvStore.remove, KvStore.removeF, increment_writes_eq, if_neg]
    · simp [hgone]
    · simp only [hnw1]
      exact hc3

/-- Witness for the C9 amended theorem: the tombstone chain on the empty
initial store at concrete inputs. -/
theorem tombstone_semantics_witness :
    ((init0.store.map Prod.fst).Nodup ∧
     (init0.number_of_writes + 1) % 10000 ≠ 0 ∧
     (init0.number_of_writes + 2) % 10000 ≠ 0 ∧
     (init0.number_of_writes + 3) % 10000 ≠ 0) ∧
    ((KvStore.remove (KvStore.set init0 "a" "1").2 "a").1 = Except.ok () ∧
     (KvStore.remove (KvStore.set init0 "a" "1").2 "a").2.get "a" = Except.ok none ∧
     (KvStore.remove (KvStore.remove (KvStore.set init0 "a" "1").2 "a").2 "a").1 =
       Except.error KvError.RemoveError) :=
  ⟨⟨by decide, by decide, by decide, by decide⟩,
   (tombstone_semantics init0 "a" "1" (by decide) (by decide) (by decide)
     (by decide)).1⟩

/-- C10 (amended, proved): for a store whose index entries lie within the
file (an invariant of reachable states), a set(k,v) or remove(k) call that
does not trigger compaction — the incremented write counter is not a
multiple of 10000 — leaves get of every other key unchanged. -/
theorem frame_without_compaction (s : KvStore) (k v k2 : String)
    (hne : k2 ≠ k) (hW : WithinFile s)
    (hc : (s.number_of_writes + 1) % 10000 ≠ 0) :
    (KvStore.set s k v).2.get k2 = s.get k2 ∧
    (KvStore.remove s k).2.get k2 = s.get k2 := by
  have hincr : increment_writes s =
      { s with number_of_writes := s.number_of_writes + 1 } := by
    rw [increment_writes_eq, if_neg hc]
  have hframe : ∀ (st : List (String × CommandBuffer)) (extra : List Char),
      assocGet st k2 = assocGet s.store k2 →
      KvStore.get { store := st, file := s.file ++ extra,
                    log_size := (0:Nat), number_of_writes := (0:Nat) } k2 =
        s.get k2 := by
    intro st extra hst
    unfold KvStore.get
    rw [hst]
    cases hget : assocGet s.store k2 with
    | none => rfl
    | some buf =>
      have hle : buf.start + buf.size ≤ s.file.length :=
        hW (k2, buf) (assocGet_mem _ _ _ hget)
      simp only [readSlice_append s.file extra buf.start buf.size hle]
  constructor
  · have hs1 : (KvStore.set s k v).2 =
        { store := assocInsert s.store k
            ⟨s.log_size, (encode (Command.set k v)).length + 1⟩,
          file := s.file ++ (encode (Command.set k v) ++ ['\n']),
          log_size := s.log_size + ((encode (Command.set k v)).length + 1),
          number_of_writes := s.number_of_writes + 1 } := by
      rw [KvStore.set, hincr]
      simp [Nat.add_assoc, List.append_assoc]
    rw [hs1]
    have h1 := hframe (assocInsert s.store k
        ⟨s.log_size, (encode (Command.set k v)).length + 1⟩)
      (encode (Command.set k v) ++ ['\n'])
      (assocGet_insert_ne _ _ _ _ hne)
    unfold KvStore.get at h1 ⊢
    exact h1
  · rw [KvStore.remove, KvStore.removeF, hincr]
    cases hmem : assocGet s.store k with
    | some buf =>
      simp only [hmem]
      have h1 := hframe (assocRemove s.store k)
        (encode (Command.rm k) ++ ['\n'])
        (assocGet_remove_ne _ _ _ hne)
      unfold KvStore.get at h1 ⊢
      simpa [List.append_assoc] using h1
    | none =>
      simp only [hmem]
      have h1 := hframe (assocRemove s.store k) []
        (assocGet_remove_ne _ _ _ hne)
      unfold KvStore.get at h1 ⊢
      simpa using h1

/-- Witness for the C10 amended theorem: mutating key b leaves get of key
a unchanged on the concrete consistent store sA. -/
theorem frame_without_compaction_witness :
    ("a" ≠ "b" ∧ WithinFile sA ∧ (sA.number_of_writes + 1) % 10000 ≠ 0) ∧
    (KvStore.set sA "b" "9").2.get "a" = sA.get "a" ∧
    (KvStore.remove sA "b").2.get "a" = sA.get "a" :=
  ⟨⟨by decide, by decide, by decide⟩,
   (frame_without_compaction sA "b" "9" "a" (by decide) (by decide) (by decide)).1,
   (frame_without_compaction sA "b" "9" "a" (by decide) (by decide) (by decide)).2⟩

/-! ## Compaction: closed forms for the rebuilt store and log -/

/-- The live pairs of a store over an index fragment, in iteration order:
for each entry whose get succeeds with a value, the key/value pair that
the compaction loop rewrites; entries whose get returns None or an error
are skipped, exactly as in the loop. -/
def livePairsOf (s : KvStore) (l : List (String × CommandBuffer)) :
    List (String × String) :=
  l.filterMap (fun kv =>
    match s.get kv.1 with
    | Except.ok (some v) => some (kv.1, v)
    | _ => none)

def livePairs (s : KvStore) : List (String × String) := livePairsOf s s.store

/-- The compacted log content: one Set record plus newline per live pair. -/
def buildFile : List (String × String) → List Char
  | [] => []
  | (k, v) :: rest => encode (Command.set k v) ++ '\n' :: buildFile rest

/-- The rebuilt index produced by compaction, with accumulated offsets. -/
def buildEntries : List (String × String) → Nat → List (String × CommandBuffer)
  | [], _ => []
  | (k, v) :: rest, off =>
      (k, ⟨off, (encode (Command.set k v)).length⟩) ::
        buildEntries rest (off + ((encode (Command.set k v)).length + 1))

theorem compact_fold_spec (s : KvStore) (l : List (String × CommandBuffer))
    (acc : CompactAcc)
    (hdisj : ∀ p ∈ l, p.1 ∉ acc.ustore.map Prod.fst)
    (hnd : (l.map Prod.fst).Nodup)
    (hlen : acc.nfile.length = acc.off) :
    l.foldl (compactStep s) acc =
      ⟨acc.ustore ++ buildEntries (livePairsOf s l) acc.off,
       acc.nfile ++ buildFile (livePairsOf s l),
       acc.off + (buildFile (livePairsOf s l)).length⟩ := by
  induction l generalizing acc with
  | nil => simp [livePairsOf, buildFile, buildEntries]
  | cons p rest ih =>
    obtain ⟨k0, b0⟩ := p
    simp only [List.map_cons, List.nodup_cons] at hnd
    rw [List.foldl_cons]
    have hrest_disj : ∀ q ∈ rest, q.1 ∉ acc.ustore.map Prod.fst :=
      fun q hq => hdisj q (List.mem_cons_of_mem _ hq)
    rcases hres : s.get k0 with e | ov
    · have hstep : compactStep s acc (k0, b0) = acc := by
        simp [compactStep, hres]
      rw [hstep, ih acc hrest_disj hnd.2 hlen]
      simp [livePairsOf, List.filterMap_cons, hres]
    · rcases ov with _ | v
      · have hstep : compactStep s acc (k0, b0) = acc := by
          simp [compactStep, hres]
        rw [hstep, ih acc hrest_disj hnd.2 hlen]
        simp [livePairsOf, List.filterMap_cons, hres]
      · have hk0 : k0 ∉ acc.ustore.map Prod.fst :=
          hdisj (k0, b0) (List.mem_cons_self _ _)
        have hstep : compactStep s acc (k0, b0) =
            ⟨acc.ustore ++ [(k0, ⟨acc.off, (encode (Command.set k0 v)).length⟩)],
             acc.nfile ++ encode (Command.set k0 v) ++ ['\n'],
             acc.off + (encode (Command.set k0 v)).length + 1⟩ := by
          simp only [compactStep, hres]
          rw [assocInsert_eq_append _ _ _ hk0]
        have hlp : livePairsOf s ((k0, b0) :: rest) = (k0, v) :: livePairsOf s rest := by
          simp [livePairsOf, List.filterMap_cons, hres]
        rw [hstep]
        rw [ih _ ?_ hnd.2 ?_]
        · rw [hlp, buildEntries, buildFile]
          simp only [CompactAcc.mk.injEq]
          refine ⟨?_, ?_, ?_⟩
          · simp [List.append_assoc, Nat.add_assoc]
          · simp [List.append_assoc]
          · simp [List.length_append]
            omega
        · intro q hq
          simp only [List.map_append, List.map_cons, List.map_nil, List.mem_append,
            List.mem_singleton]
          push_neg
          refine ⟨hrest_disj q hq, ?_⟩
          intro hqk
          exact hnd.1 (hqk ▸ List.mem_map_of_mem Prod.fst hq)
        · simp only [List.length_append, List.length_cons, List.length_nil, hlen]

/-! ## Codec roundtrip: from_str inverts encode -/

theorem litSetOpen_chars :
    litSetOpen = ['\x7b', '"', 'S', 'e', 't', '"', ':', '\x7b', '"', 'k', 'e', 'y', '"', ':', '"'] := rfl

theorem litValueMid_chars :
    litValueMid = ['"', ',', '"', 'v', 'a', 'l', 'u', 'e', '"', ':', '"'] := rfl

theorem litClose_chars : litClose = ['"', '\x7d', '\x7d'] := rfl

theorem litRmOpen_chars :
    litRmOpen = ['\x7b', '"', 'R', 'm', '"', ':', '\x7b', '"', 'k', 'e', 'y', '"', ':', '"'] := rfl

theorem litSetTag_chars : litSetTag = ['S', 'e', 't', '"'] := rfl

theorem litRmTag_chars : litRmTag = ['R', 'm', '"'] := rfl

theorem litKeyName_chars : litKeyName = ['k', 'e', 'y'] := rfl

theorem litValueName_chars : litValueName = ['v', 'a', 'l', 'u', 'e'] := rfl

theorem expectCh_lbrace (s : List Char) : expectCh '\x7b' ('\x7b' :: s) = some s := rfl

theorem expectCh_rbrace (s : List Char) : expectCh '\x7d' ('\x7d' :: s) = some s := rfl

theorem expectCh_quote (s : List Char) : expectCh '"' ('"' :: s) = some s := rfl

theorem expectCh_colon (s : List Char) : expectCh ':' (':' :: s) = some s := rfl

theorem expectCh_comma (s : List Char) : expectCh ',' (',' :: s) = some s := rfl

theorem expectLit_cons (a : Char) (p s : List Char) :
    expectLit (a :: p) (a :: s) = expectLit p s := by
  simp [expectLit]

theorem expectLit_nil (s : List Char) : expectLit [] s = some s := rfl

theorem skipWs_all (l : List Char) (h : ∀ c ∈ l, isWsChar c = true) :
    skipWs l = [] := by
  induction l with
  | nil => rfl
  | cons c cs ih =>
    rw [skipWs, if_pos (h c (List.mem_cons_self _ _))]
    exact ih (fun d hd => h d (List.mem_cons_of_mem _ hd))

theorem string_mk_data (s : String) : String.mk s.data = s := rfl

theorem hexVal_hexDigitChar (n : Nat) (h : n < 16) :
    hexVal (hexDigitChar n) = some n := by
  interval_cases n <;> decide

theorem parseStrBodyF_succ_cons (fuel : Nat) (c : Char) (rest : List Char) :
    parseStrBodyF (fuel + 1) (c :: rest) =
      parseStrStep (fun l => parseStrBodyF fuel l) c rest := rfl

theorem esc_length_ge (cs : List Char) : cs.length ≤ (esc cs).length := by
  induction cs with
  | nil => simp [esc]
  | cons c cs ih =>
    rw [esc, List.length_append, List.length_cons]
    have : 1 ≤ (escChar c).length := by
      unfold escChar
      split_ifs <;> simp
    omega

/-- Parsing the escaped body of a string with sufficient fuel recovers
it: the parser undoes escChar on every character class. -/
theorem parseStrBodyF_esc (cs : List Char) : ∀ (fuel : Nat) (rest : List Char),
    cs.length + 1 ≤ fuel →
    parseStrBodyF fuel (esc cs ++ '"' :: rest) = some (cs, rest) := by
  induction cs with
  | nil =>
    intro fuel rest hf
    match fuel, hf with
    | f + 1, _ => rfl
  | cons c cs ih =>
    intro fuel rest hf
    match fuel, hf with
    | f + 1, hf =>
      have hf' : cs.length + 1 ≤ f := by
        simp only [List.length_cons] at hf
        omega
      have ihf := ih f rest hf'
      rw [esc, List.append_assoc]
      unfold escChar
      split_ifs with h1 h2 h3 h4 h5 h6 h7 h8
      · subst h1
        show (parseStrBodyF f (esc cs ++ '"' :: rest)).map
            (fun p => ('"' :: p.1, p.2)) = some ('"' :: cs, rest)
        rw [ihf]
        rfl
      · subst h2
        show (parseStrBodyF f (esc cs ++ '"' :: rest)).map
            (fun p => ('\\' :: p.1, p.2)) = some ('\\' :: cs, rest)
        rw [ihf]
        rfl
      · subst h3
        show (parseStrBodyF f (esc cs ++ '"' :: rest)).map
            (fun p => ('\n' :: p.1, p.2)) = some ('\n' :: cs, rest)
        rw [ihf]
        rfl
      · subst h4
        show (parseStrBodyF f (esc cs ++ '"' :: rest)).map
            (fun p => ('\r' :: p.1, p.2)) = some ('\r' :: cs, rest)
        rw [ihf]
        rfl
      · subst h5
        show (parseStrBodyF f (esc cs ++ '"' :: rest)).map
            (fun p => ('\t' :: p.1, p.2)) = some ('\t' :: cs, rest)
        rw [ihf]
        rfl
      · have hc : Char.ofNat 8 = c := by
          rw [← h6, Char.ofNat_toNat]
        show (parseStrBodyF f (esc cs ++ '"' :: rest)).map
            (fun p => (Char.ofNat 8 :: p.1, p.2)) = some (c :: cs, rest)
        rw [ihf, hc]
        rfl
      · have hc : Char.ofNat 12 = c := by
          rw [← h7, Char.ofNat_toNat]
        show (parseStrBodyF f (esc cs ++ '"' :: rest)).map
            (fun p => (Char.ofNat 12 :: p.1, p.2)) = some (c :: cs, rest)
        rw [ihf, hc]
        rfl
      · have e1 : hexVal (hexDigitChar (c.toNat / 16)) = some (c.toNat / 16) :=
          hexVal_hexDigitChar _ (by omega)
        have e2 : hexVal (hexDigitChar (c.toNat % 16)) = some (c.toNat % 16) :=
          hexVal_hexDigitChar _ (by omega)
        show (match hexVal '0', hexVal '0', hexVal (hexDigitChar (c.toNat / 16)),
                hexVal (hexDigitChar (c.toNat % 16)) with
              | some a, some b, some c2, some d =>
                (parseStrBodyF f (esc cs ++ '"' :: rest)).map
                  (fun p => (Char.ofNat (((a * 16 + b) * 16 + c2) * 16 + d) :: p.1, p.2))
              | _, _, _, _ =>
                (none : Option (List Char × List Char))) = some (c :: cs, rest)
        rw [e1, e2]
        show (parseStrBodyF f (esc cs ++ '"' :: rest)).map
            (fun p => (Char.ofNat (((0 * 16 + 0) * 16 + c.toNat / 16) * 16 + c.toNat % 16)
              :: p.1, p.2)) = some (c :: cs, rest)
        rw [ihf]
        have harith :
            ((0 * 16 + 0) * 16 + c.toNat / 16) * 16 + c.toNat % 16 = c.toNat := by
          omega
        rw [harith, Char.ofNat_toNat]
        rfl
      · rw [List.singleton_append, parseStrBodyF_succ_cons]
        unfold parseStrStep
        rw [if_neg h1, if_neg h2, if_neg h8]
        show (parseStrBodyF f (esc cs ++ '"' :: rest)).map
            (fun p => (c :: p.1, p.2)) = some (c :: cs, rest)
        rw [ihf]
        rfl

/-- Parsing the escaped body of a string recovers it. -/
theorem parseStrBody_esc (cs rest : List Char) :
    parseStrBody (esc cs ++ '"' :: rest) = some (cs, rest) := by
  unfold parseStrBody
  apply parseStrBodyF_esc
  have h1 := esc_length_ge cs
  simp only [List.length_append, List.length_cons]
  omega

/-- Decoding inverts encoding for Set records, with any trailing
whitespace tolerated (serde_json skips trailing whitespace). -/
theorem from_str_encode_set (k v : String) (tail : List Char)
    (hw : ∀ c ∈ tail, isWsChar c = true) :
    from_str (encode (Command.set k v) ++ tail) = some (Command.set k v) := by
  have h1 : encode (Command.set k v) ++ tail =
      '\x7b' :: '"' :: 'S' :: 'e' :: 't' :: '"' :: ':' :: '\x7b' :: '"' :: 'k' ::
        'e' :: 'y' :: '"' :: ':' :: '"' ::
        (esc k.data ++ ('"' :: ',' :: '"' :: 'v' :: 'a' :: 'l' :: 'u' :: 'e' ::
          '"' :: ':' :: '"' ::
          (esc v.data ++ ('"' :: '\x7d' :: '\x7d' :: tail)))) := by
    simp [encode, litSetOpen_chars, litValueMid_chars, litClose_chars]
  rw [h1]
  simp only [from_str, parseField, endOfInput, litSetTag_chars, litKeyName_chars,
    litValueName_chars, expectCh_lbrace, expectCh_rbrace, expectCh_quote,
    expectCh_colon, expectCh_comma, expectLit_cons, expectLit_nil,
    List.cons_append, List.nil_append, parseStrBody_esc,
    Option.some_bind, Option.bind_eq_bind, skipWs_all tail hw, string_mk_data]
  rfl

/-- Decoding inverts encoding for Set records. -/
theorem from_str_encode_set_exact (k v : String) :
    from_str (encode (Command.set k v)) = some (Command.set k v) := by
  have h := from_str_encode_set k v [] (by simp)
  simpa using h

theorem compact_log_eq (s : KvStore) (hnd : (s.store.map Prod.fst).Nodup) :
    compact_log s =
      { store := buildEntries (livePairs s) 0,
        file := buildFile (livePairs s),
        log_size := (buildFile (livePairs s)).length,
        number_of_writes := s.number_of_writes } := by
  unfold compact_log compact_logF
  rw [compact_fold_spec s s.store ⟨[], [], 0⟩ (by simp) hnd rfl]
  simp [livePairs]

theorem buildEntries_absent (ps : List (String × String)) (k : String)
    (h : k ∉ ps.map Prod.fst) : ∀ off, assocGet (buildEntries ps off) k = none := by
  induction ps with
  | nil => intro off; rfl
  | cons p rest ih =>
    intro off
    obtain ⟨k0, v0⟩ := p
    simp only [List.map_cons, List.mem_cons] at h
    push_neg at h
    simp [buildEntries, assocGet, Ne.symm h.1, ih h.2]

theorem buildEntries_lookup (ps : List (String × String)) :
    ∀ (off : Nat) (pre : List Char) (k v : String),
    (ps.map Prod.fst).Nodup → (k, v) ∈ ps → pre.length = off →
    ∃ buf, assocGet (buildEntries ps off) k = some buf ∧
      readSlice (pre ++ buildFile ps) buf.start buf.size =
        some (encode (Command.set k v)) := by
  induction ps with
  | nil =>
    intro off pre k v _ hmem _
    simp at hmem
  | cons p rest ih =>
    intro off pre k v hnd hmem hoff
    obtain ⟨k0, v0⟩ := p
    simp only [List.map_cons, List.nodup_cons] at hnd
    by_cases hk : k0 = k
    · subst hk
      have hv : v = v0 := by
        rcases List.mem_cons.mp hmem with h | h
        · cases h
          rfl
        · exact absurd (List.mem_map_of_mem Prod.fst h) hnd.1
      subst hv
      refine ⟨⟨off, (encode (Command.set k0 v)).length⟩, ?_, ?_⟩
      · simp [buildEntries, assocGet]
      · rw [buildFile]
        have heq : pre ++ (encode (Command.set k0 v) ++ '\n' :: buildFile rest) =
            pre ++ encode (Command.set k0 v) ++ ('\n' :: buildFile rest) := by
          simp [List.append_assoc]
        rw [heq]
        exact readSlice_exact pre _ _ off hoff
    · have hmem2 : (k, v) ∈ rest := by
        rcases List.mem_cons.mp hmem with h | h
        · exact absurd (congrArg Prod.fst h).symm hk
        · exact h
      obtain ⟨buf, hb1, hb2⟩ := ih (off + ((encode (Command.set k0 v0)).length + 1))
        (pre ++ encode (Command.set k0 v0) ++ ['\n']) k v hnd.2 hmem2
        (by simp only [List.length_append, List.length_cons, List.length_nil, hoff]
            omega)
      refine ⟨buf, ?_, ?_⟩
      · simp [buildEntries, assocGet, hk, hb1]
      · rw [buildFile]
        have heq : pre ++ (encode (Command.set k0 v0) ++ '\n' :: buildFile rest) =
            (pre ++ encode (Command.set k0 v0) ++ ['\n']) ++ buildFile rest := by
          simp [List.append_assoc]
        rw [heq]
        exact hb2

theorem livePairsOf_keys_sublist (s : KvStore) (l : List (String × CommandBuffer)) :
    ((livePairsOf s l).map Prod.fst).Sublist (l.map Prod.fst) := by
  induction l with
  | nil => simp [livePairsOf]
  | cons p rest ih =>
    obtain ⟨k0, b0⟩ := p
    rcases hres : s.get k0 with e | ov
    · simp only [livePairsOf, List.filterMap_cons, hres, List.map_cons]
      exact ih.trans (List.sublist_cons_self _ _)
    · rcases ov with _ | v
      · simp only [livePairsOf, List.filterMap_cons, hres, List.map_cons]
        exact ih.trans (List.sublist_cons_self _ _)
      · simp only [livePairsOf, List.filterMap_cons, hres, List.map_cons]
        exact ih.cons₂ k0

theorem mem_livePairs (s : KvStore) (k v : String) (buf : CommandBuffer)
    (hbuf : assocGet s.store k = some buf)
    (hget : s.get k = Except.ok (some v)) : (k, v) ∈ livePairs s := by
  unfold livePairs livePairsOf
  refine List.mem_filterMap.mpr ⟨(k, buf), assocGet_mem _ _ _ hbuf, ?_⟩
  simp [hget]

theorem get_ok_none_iff (s : KvStore) (k : String) :
    s.get k = Except.ok none ↔ assocGet s.store k = none := by
  constructor
  · intro hr
    cases h : assocGet s.store k with
    | none => rfl
    | some buf =>
      exfalso
      unfold KvStore.get at hr
      rw [h] at hr
      have hr1 : (match readSlice s.file buf.start buf.size with
          | none => Except.error KvError.OpenError
          | some bytes =>
            match from_str bytes with
            | none => Except.error KvError.WriteError
            | some (Command.set _ v) => Except.ok (some v)
            | some _ => Except.error KvError.InvalidLogCommand) =
          (Except.ok none : Except KvError (Option String)) := hr
      rcases hslice : readSlice s.file buf.start buf.size with _ | bytes
      · rw [hslice] at hr1
        exact absurd hr1 (by simp)
      · rw [hslice] at hr1
        have hr2 : (match from_str bytes with
            | none => Except.error KvError.WriteError
            | some (Command.set _ v) => Except.ok (some v)
            | some _ => Except.error KvError.InvalidLogCommand) =
            (Except.ok none : Except KvError (Option String)) := hr1
        rcases hp : from_str bytes with _ | cmd <;> rw [hp] at hr2
        · simp at hr2
        · rcases cmd <;> simp at hr2
  · intro h
    unfold KvStore.get
    rw [h]

theorem get_ok_some_entry (s : KvStore) (k v : String)
    (h : s.get k = Except.ok (some v)) :
    ∃ buf, assocGet s.store k = some buf := by
  cases hh : assocGet s.store k with
  | none =>
    unfold KvStore.get at h
    rw [hh] at h
    simp at h
  | some buf => exact ⟨buf, rfl⟩

theorem assocGet_none_not_mem (m : List (String × CommandBuffer)) (k : String) :
    assocGet m k = none → k ∉ m.map Prod.fst := by
  induction m with
  | nil =>
    intro _
    simp
  | cons hd tl ih =>
    obtain ⟨k1, b1⟩ := hd
    intro h hmem
    rw [assocGet] at h
    by_cases h2 : k1 = k
    · simp [h2] at h
    · rcases List.mem_cons.mp hmem with h3 | h3
      · exact h2 h3.symm
      · exact ih (by simpa [h2] using h) h3

/-- C3 (amended, proved): a completed compaction writes only Set records
to the compacted log — the log becomes exactly one Set record plus newline
per live pair, so no Remove record is ever written — and for every key on
which get succeeded before the compaction (with a Some or None result),
get returns the identical result afterwards. Keys whose get fails before
compaction are silently dropped by the loop. -/
theorem compaction_preserves_successful_gets (s : KvStore)
    (hnd : (s.store.map Prod.fst).Nodup) :
    (compact_log s).file = buildFile (livePairs s) ∧
    ∀ (k : String) (r : Option String),
      s.get k = Except.ok r → (compact_log s).get k = Except.ok r := by
  have hc := compact_log_eq s hnd
  refine ⟨by rw [hc], ?_⟩
  intro k r hr
  rcases r with _ | v
  · have habs : assocGet s.store k = none := (get_ok_none_iff s k).mp hr
    have hk : k ∉ (livePairs s).map Prod.fst := by
      intro hmem
      exact assocGet_none_not_mem _ _ habs
        ((livePairsOf_keys_sublist s s.store).mem hmem)
    rw [hc]
    unfold KvStore.get
    rw [buildEntries_absent _ _ hk 0]
  · obtain ⟨buf, hbuf⟩ := get_ok_some_entry s k v hr
    have hmem : (k, v) ∈ livePairs s := mem_livePairs s k v buf hbuf hr
    have hlnd : ((livePairs s).map Prod.fst).Nodup :=
      (livePairsOf_keys_sublist s s.store).nodup hnd
    obtain ⟨buf2, hb1, hb2⟩ :=
      buildEntries_lookup (livePairs s) 0 [] k v hlnd hmem rfl
    rw [hc]
    unfold KvStore.get
    rw [hb1]
    show (match readSlice (buildFile (livePairs s)) buf2.start buf2.size with
        | none => Except.error KvError.OpenError
        | some bytes =>
          match from_str bytes with
          | none => Except.error KvError.WriteError
          | some (Command.set _ v2) => Except.ok (some v2)
          | some _ => Except.error KvError.InvalidLogCommand) =
        (Except.ok (some v) : Except KvError (Option String))
    rw [List.nil_append] at hb2
    rw [hb2]
    show (match from_str (encode (Command.set k v)) with
        | none => Except.error KvError.WriteError
        | some (Command.set _ v2) => Except.ok (some v2)
        | some _ => Except.error KvError.InvalidLogCommand) =
        (Except.ok (some v) : Except KvError (Option String))
    rw [from_str_encode_set_exact]

/-- Witness for the C3 amended theorem on a concrete consistent store. -/
theorem compaction_preserves_successful_gets_witness :
    ((sA.store.map Prod.fst).Nodup ∧ sA.get "a" = Except.ok (some "1")) ∧
    (compact_log sA).get "a" = Except.ok (some "1") :=
  ⟨⟨by decide, by decide⟩,
   (compaction_preserves_successful_gets sA (by decide)).2 "a" (some "1")
     (by decide)⟩
